import Mathlib

/-!
Shallow embedding of the core raster operations of the cropscape-clip
repository: the reclassifier (`reclassify_raster`), the class-difference
encoder (`compute_raster_class_difference`), the per-pixel trajectory
aggregator (`calculate_pixel_trajectories`), and the shared progress
counter (`multiprocess_counter` / `watch_counter`).

Rasters are single-band grids of small integer codes; the grid is
flattened row-major into a `List Int`, exactly the order in which the
aggregator's pixel counter walks it.  Python dicts iterate in insertion
order, so a `PixelRemapSpecs`/`PixelDiffSpecs` dict is embedded as a list
of key/value pairs in that order.  Fallible code (`raise ValueError`,
uncaught `IndexError`) is embedded with `Except`.
-/

/-- One entry of a reclassification table, from `reclassify_raster.py`:
`PixelRemapSpec = TypedDict(..., {'color': ..., 'name': str, 'original': list[int]})`. -/
structure PixelRemapSpec where
  color : Int × Int × Int
  name : String
  original : List Int
deriving DecidableEq, Repr

/-- One entry of a difference table, from `compute_raster_class_difference.py`.
The Python keys `from`/`to` are spelled `fromClasses`/`toClasses` because
`from` is a Lean keyword. -/
structure PixelDiffSpec where
  color : Int × Int × Int
  name : String
  fromClasses : List Int
  toClasses : List Int
deriving DecidableEq, Repr

/-- The remap loop body of `reclassify_raster`: one pass of
`numpy.where(numpy.isin(reclassified, value['original']), key * -1, reclassified)`
applied to every spec in dict order.  The membership test runs on the
already partially reclassified value, so a pixel negated by an earlier
spec is seen negated by later specs. -/
def applyRemap (remap : List (Int × PixelRemapSpec)) (v : Int) : Int :=
  remap.foldl (fun acc kv => if acc ∈ kv.2.original then -kv.1 else acc) v

/-- One pixel of `reclassify_raster`: the spec loop followed by
`numpy.absolute`. -/
def reclassifyPixel (remap : List (Int × PixelRemapSpec)) (v : Int) : Int :=
  |applyRemap remap v|

/-- `reclassify_raster` from `reclassify_raster.py` (lines 36-44), restricted
to its pixel transformation: reclassify each pixel of band 1 by the spec
loop, then take absolute values.  File output and colormap writing are
I/O and not modelled. -/
def reclassify_raster (remap : List (Int × PixelRemapSpec)) (band : List Int) : List Int :=
  band.map (reclassifyPixel remap)

/-- The code of the first spec in table order whose `original` list contains
the raw value, if any (`dict` iteration order). -/
def firstMatchCode (remap : List (Int × PixelRemapSpec)) (v : Int) : Option Int :=
  (remap.find? (fun kv => decide (v ∈ kv.2.original))).map (fun kv => kv.1)

/-- One pixel of `compute_raster_class_difference`: starting from the zero
array, every spec in dict order overwrites the pixel with its key when
`numpy.isin(from_data, value['from']) & numpy.isin(to_data, value['to'])`
holds there.  The conditions read the unmodified input arrays, so a later
matching spec overwrites an earlier one. -/
def diffPixel (remap : List (Int × PixelDiffSpec)) (f t : Int) : Int :=
  remap.foldl (fun acc kv => if f ∈ kv.2.fromClasses ∧ t ∈ kv.2.toClasses then kv.1 else acc) 0

/-- `compute_raster_class_difference` from
`compute_raster_class_difference.py`: shape check, reserved-zero check,
then the per-pixel overwrite loop.  The two `raise ValueError` paths are
embedded as `Except.error` with the source messages. -/
def compute_raster_class_difference (from_data to_data : List Int)
    (remap : List (Int × PixelDiffSpec)) : Except String (List Int) :=
  if from_data.length ≠ to_data.length then
    Except.error "The two rasters must have the same shape."
  else if remap.any (fun kv => kv.1 == 0) then
    Except.error "The remap dictionary must not contain a value for 0."
  else
    Except.ok (List.zipWith (diffPixel remap) from_data to_data)

/-- Stated from the spec's words for claim C3: the code of the *last*
DiffSpec in table order whose `fromClasses` contains the from-value and
whose `toClasses` contains the to-value. -/
def lastMatchingCode (remap : List (Int × PixelDiffSpec)) (f t : Int) : Option Int :=
  ((remap.filter (fun kv => decide (f ∈ kv.2.fromClasses) && decide (t ∈ kv.2.toClasses))).getLast?).map
    (fun kv => kv.1)

/-- A DiffSpec with its `from`/`to` class lists exchanged (the code is
kept), as used by the swap property in §8 of the spec. -/
def swapDiffSpec (kv : Int × PixelDiffSpec) : Int × PixelDiffSpec :=
  (kv.1, { kv.2 with fromClasses := kv.2.toClasses, toClasses := kv.2.fromClasses })

/-- Python `range(a, b)` over integers. -/
def intRange (a b : Int) : List Int :=
  (List.range (b - a).toNat).map (fun i => a + i)

/-- The 2-entry boolean remap table built inline by
`calculate_pixel_trajectories` (lines 30-38 of
`calculate_pixel_trajectories.py`): code `1` for the class itself and
code `0` for `list(range(1, class_num)) + list(range(class_num + 1, 256))`. -/
def booleanRemap (class_num : Int) (name : String) : List (Int × PixelRemapSpec) :=
  [ (1, { color := (85, 237, 252), name := name, original := [class_num] })
  , (0, { color := (0, 0, 0), name := "not " ++ name
        , original := intRange 1 class_num ++ intRange (class_num + 1) 256 }) ]

/-- A per-class boolean raster (1 = the class, 0 = not the class), produced
by running `reclassify_rasters` with `booleanRemap`. -/
def booleanRaster (class_num : Int) (name : String) (raster : List Int) : List Int :=
  reclassify_raster (booleanRemap class_num name) raster

/-- The fixed 2-entry diff table of the aggregator: code `1` = gained the
class (`0 -> 1`), code `254` = lost the class (`1 -> 0`). -/
def trajDiffRemap : List (Int × PixelDiffSpec) :=
  [ (1, { color := (67, 96, 236), name := "new", fromClasses := [0], toClasses := [1] })
  , (254, { color := (255, 51, 50), name := "new", fromClasses := [1], toClasses := [0] }) ]

/-- The adjacent-year differences of a list of boolean rasters: each entry
diffs the previous raster against the current one with `trajDiffRemap`.
A shape mismatch propagates as the `ValueError` of
`compute_raster_class_difference`, which the aggregator does not catch. -/
def diffSeriesFrom : List Int → List (List Int) → Except String (List (List Int))
  | _, [] => Except.ok []
  | prev, x :: xs => do
      let d ← compute_raster_class_difference prev x trajDiffRemap
      let rest ← diffSeriesFrom x xs
      Except.ok (d :: rest)

/-- `diff_dict[class_num]` of the aggregator: the first year's boolean
raster seeds the series directly, followed by one diff per adjacent year
pair. -/
def classDiffSeries (class_num : Int) (name : String) (rasters : List (List Int)) :
    Except String (List (List Int)) :=
  match rasters.map (booleanRaster class_num name) with
  | [] => Except.ok []
  | b :: bs => do
      let rest ← diffSeriesFrom b bs
      Except.ok (b :: rest)

/-- The classes the aggregator iterates: every entry of the reclass spec
except key `0` (`if (class_num == 0): continue`), in dict order. -/
def aggClasses (reclass_spec : List (Int × PixelRemapSpec)) : List (Int × PixelRemapSpec) :=
  reclass_spec.filter (fun kv => kv.1 != 0)

/-- `class_names_in_order`: the names of the aggregated classes, as
character lists (Python strings are sequences of code points). -/
def aggClassNames (reclass_spec : List (Int × PixelRemapSpec)) : List (List Char) :=
  (aggClasses reclass_spec).map (fun kv => kv.2.name.toList)

/-- `diff_dict` as a whole: for every non-zero class, its seeded diff
series. -/
def aggSeries (reclass_spec : List (Int × PixelRemapSpec)) (rasters : List (List Int)) :
    Except String (List (List (List Int))) :=
  (aggClasses reclass_spec).mapM (fun kv => classDiffSeries kv.1 kv.2.name rasters)

/-- One cell of the pixel x class x year tensor.  The tensor is a zero
array into which each diff array is copied pixel by pixel; a pixel index
beyond a diff array simply keeps the zero, which `getD` reproduces. -/
def tensorVal (series : List (List (List Int))) (c t p : Nat) : Int :=
  ((series.getD c []).getD t []).getD p 0

/-- The inner class scan of the trajectory loop: the first class index
whose tensor value at this transition is `1` gives its name; the `break`
statements stop the scan at that class. -/
def firstGainAux (series : List (List (List Int))) (t p : Nat) :
    List (List Char) → Nat → Option (List Char)
  | [], _ => none
  | n :: rest, c =>
      if tensorVal series c t p = 1 then some n else firstGainAux series t p rest (c + 1)

/-- The Python string `' → '` appended after every recorded class name. -/
def arrowChunk : List Char := [' ', '→', ' ']

/-- Recording one gained class: `string = f'{class_name} → '`; if the
trajectory already ends with it the year is collapsed
(`if trajectory.endswith(string): break`), otherwise it is appended. -/
def trajAppend (traj name : List Char) : List Char :=
  if (name ++ arrowChunk).isSuffixOf traj then traj else traj ++ (name ++ arrowChunk)

/-- The trajectory string of one pixel: walk the transitions in
chronological order, and at each one record the first class whose
"gained" code fires, collapsing immediate repeats. -/
def pixelTrajectory (names : List (List Char)) (series : List (List (List Int)))
    (transitions p : Nat) : List Char :=
  (List.range transitions).foldl
    (fun traj t =>
      match firstGainAux series t p names 0 with
      | none => traj
      | some n => trajAppend traj n) []

/-- The trajectory labels of all pixels, in pixel order. -/
def aggLabels (names : List (List Char)) (series : List (List (List Int)))
    (transitions pixels : Nat) : List (List Char) :=
  (List.range pixels).map (fun p => pixelTrajectory names series transitions p)

/-- Python `d[k] = v` on an insertion-ordered dict: update in place when
the key exists, append otherwise. -/
def dictSet (d : List (List Char × Nat)) (k : List Char) (v : Nat) : List (List Char × Nat) :=
  if d.any (fun kv => kv.1 == k) then d.map (fun kv => if kv.1 == k then (k, v) else kv)
  else d ++ [(k, v)]

/-- Python `d.get(k, 0)`. -/
def dictGet (d : List (List Char × Nat)) (k : List Char) : Nat :=
  match d.find? (fun kv => kv.1 == k) with
  | some kv => kv.2
  | none => 0

/-- `pixel_trajectories_counts[t] = pixel_trajectories_counts.get(t, 0) + 1`. -/
def dictIncr (d : List (List Char × Nat)) (k : List Char) : List (List Char × Nat) :=
  dictSet d k (dictGet d k + 1)

/-- The histogram loop: every pixel with a non-empty trajectory
(`if trajectory:`) increments its label's count. -/
def buildCounts (labels : List (List Char)) : List (List Char × Nat) :=
  labels.foldl (fun d l => if l = [] then d else dictIncr d l) []

/-- Python `key[:-3]`, dropping the trailing `' → '` (three characters). -/
def pyTrim3 (l : List Char) : List Char := l.take (l.length - 3)

/-- `clean_trajectory_counts = { key[:-3]: value for key, value in ... }`:
a dict comprehension rebuilds the dict in iteration order; colliding
shortened keys would overwrite. -/
def cleanCounts (d : List (List Char × Nat)) : List (List Char × Nat) :=
  d.foldl (fun acc kv => dictSet acc (pyTrim3 kv.1) kv.2) []

/-- Python string `<` comparison: lexicographic on code points. -/
def labelLt : List Char → List Char → Bool
  | [], [] => false
  | [], _ :: _ => true
  | _ :: _, [] => false
  | a :: as, b :: bs => if a < b then true else if b < a then false else labelLt as bs

/-- Insert an entry into a descending-by-key list: it moves past exactly
the entries with strictly greater keys, so equal keys keep their original
relative order. -/
def insertDescByKey (x : List Char × Nat) : List (List Char × Nat) → List (List Char × Nat)
  | [] => [x]
  | y :: ys => if labelLt x.1 y.1 then y :: insertDescByKey x ys else x :: y :: ys

/-- `dict(sorted(items, key=lambda item: item[0], reverse=True))`: a stable
sort by key, descending.  Any stable sort over the same total key order
produces the same list as Python's `sorted(..., reverse=True)`. -/
def sortDescByKey : List (List Char × Nat) → List (List Char × Nat)
  | [] => []
  | x :: xs => insertDescByKey x (sortDescByKey xs)

/-- `calculate_pixel_trajectories` from `calculate_pixel_trajectories.py`:
boolean rasters per class, adjacent-year diffs, the pixel tensor, the
per-pixel trajectory scan, and the cleaned, sorted histogram.  The
`IndexError` Python raises when `diff_dict` is empty (no rasters or no
non-zero class) is embedded as `Except.error`. -/
def calculate_pixel_trajectories (reclass_spec : List (Int × PixelRemapSpec))
    (rasters : List (List Int)) : Except String (List (List Char × Nat)) := do
  let series ← aggSeries reclass_spec rasters
  match series with
  | [] => Except.error "IndexError: list index out of range"
  | s0 :: _ =>
    match s0 with
    | [] => Except.error "IndexError: list index out of range"
    | a0 :: _ =>
      Except.ok (sortDescByKey (cleanCounts (buildCounts
        (aggLabels (aggClassNames reclass_spec) series s0.length a0.length))))

/-- The sum of all histogram values. -/
def sumVals (d : List (List Char × Nat)) : Nat := (d.map (fun kv => kv.2)).sum

/-- The keys of an insertion-ordered dict. -/
def keysOf (d : List (List Char × Nat)) : List (List Char) := d.map (fun kv => kv.1)

/-- The watcher's state in `watch_counter` (`multiprocess_counter.py`):
the `last_value` it remembers between polls, and the argument lists of
every callback invocation so far. -/
structure WatcherState where
  last_value : Int
  calls : List (List Int)
deriving DecidableEq, Repr

/-- One poll iteration of `watch_counter`: read the counter under the
lock; on a change, dispatch on the callback's declared parameter count
(`len(inspect.signature(callback).parameters)`): one parameter gets the
new value, two get new and previous, any other count is not called at
all; `last_value` then advances regardless. -/
def watch_counter_poll (nparams : Nat) (s : WatcherState) (current : Int) : WatcherState :=
  if current ≠ s.last_value then
    { last_value := current
    , calls :=
        if nparams = 1 then s.calls ++ [[current]]
        else if nparams = 2 then s.calls ++ [[current, s.last_value]]
        else s.calls }
  else s

/-- The shared state of `multiprocess_counter`: the managed counter the
workers increment under the lock, plus the watcher thread's state.  The
documented callback shape has two parameters. -/
structure CounterSystem where
  counter : Int
  watcher : WatcherState
deriving DecidableEq, Repr

/-- An observable event of the counter substrate: a worker increment
(`with lock: shared_counter.value += 1`) or one watcher poll. -/
inductive CounterEvent where
  | inc
  | poll
deriving DecidableEq, Repr

/-- The interleaving semantics: increments and polls are serialized by the
lock, so a run is a sequence of these two atomic events. -/
def counterStep (s : CounterSystem) : CounterEvent → CounterSystem
  | CounterEvent.inc => { s with counter := s.counter + 1 }
  | CounterEvent.poll => { s with watcher := watch_counter_poll 2 s.watcher s.counter }

/-- Run the counter substrate from its initial state (counter `0`,
watcher seeded with `last_value = shared_counter.value = 0`, no calls).
The scope exit of `multiprocess_counter` runs `pass`, so the trace simply
ends: no final poll is forced. -/
def runCounter (events : List CounterEvent) : CounterSystem :=
  events.foldl counterStep { counter := 0, watcher := { last_value := 0, calls := [] } }

/-- The delta reported by one 2-parameter callback invocation
`(current, previous)`. -/
def callDelta (args : List Int) : Int := args.getD 0 0 - args.getD 1 0

/-- The sum of the deltas reported across all callback invocations. -/
def reportedDeltaSum (s : CounterSystem) : Int := (s.watcher.calls.map callDelta).sum

/-- The number of worker increments in a trace. -/
def countIncs (events : List CounterEvent) : Nat :=
  events.countP (fun e => e == CounterEvent.inc)

/-- Whether every pair of consecutive increments has at least one poll
between them; the flag records whether an increment was seen since the
last poll. -/
def incsSeparatedByPoll (needPoll : Bool) : List CounterEvent → Bool
  | [] => true
  | CounterEvent.poll :: rest => incsSeparatedByPoll false rest
  | CounterEvent.inc :: rest => if needPoll then false else incsSeparatedByPoll true rest

/-- The 3-pixel, 3-year, 2-class fixture of §8 of the spec: the class
table {1 = A, 2 = B}. -/
def fixtureSpec : List (Int × PixelRemapSpec) :=
  [ (1, { color := (0, 0, 0), name := "A", original := [1] })
  , (2, { color := (0, 0, 0), name := "B", original := [2] }) ]

/-- The fixture's three consolidated yearly rasters, pixels flattened in
order (pixel 1: A,B,B; pixel 2: A,A,A; pixel 3: A,B,A). -/
def fixtureRasters : List (List Int) := [[1, 1, 1], [2, 1, 2], [2, 1, 1]]

/-- The diff tensor the aggregator builds for the fixture (computed by
`aggSeries`): per class, the seed year then the two adjacent diffs. -/
def fixtureSeries : List (List (List Int)) :=
  [ [[1, 1, 1], [254, 0, 254], [0, 0, 1]]
  , [[0, 0, 0], [1, 0, 1], [0, 0, 254]] ]

/-- If the current value is matched by no spec, the remap loop leaves it
unchanged. -/
theorem applyRemap_no_match (remap : List (Int × PixelRemapSpec)) (v : Int)
    (h : ∀ kv ∈ remap, v ∉ kv.2.original) : applyRemap remap v = v := by
  induction remap with
  | nil => rfl
  | cons kv rest ih =>
      have hv : v ∉ kv.2.original := h kv (List.mem_cons_self kv rest)
      simp only [applyRemap, List.foldl_cons, if_neg hv]
      exact ih (fun e he => h e (List.mem_cons_of_mem kv he))

/-- Core behaviour of the reclassifier on one pixel: with positive target
codes, non-negative source codes and a non-negative raw value, the output
is the code of the *first* spec in table order whose `original` list
contains the raw value, or the raw value itself if none does.  The first
matching spec negates the pixel, so no later spec can match it again. -/
theorem reclassifyPixel_eq_firstMatch (remap : List (Int × PixelRemapSpec)) (v : Int)
    (hcode : ∀ kv ∈ remap, 1 ≤ kv.1)
    (horig : ∀ kv ∈ remap, ∀ x ∈ kv.2.original, 0 ≤ x)
    (hv : 0 ≤ v) :
    reclassifyPixel remap v = (firstMatchCode remap v).getD v := by
  induction remap with
  | nil => simp [reclassifyPixel, applyRemap, firstMatchCode, abs_of_nonneg hv]
  | cons kv rest ih =>
      by_cases hmem : v ∈ kv.2.original
      · have h1 : (1 : Int) ≤ kv.1 := hcode kv (List.mem_cons_self kv rest)
        have hkeep : applyRemap rest (-kv.1) = -kv.1 :=
          applyRemap_no_match rest (-kv.1) (fun e he hx => by
            have h0 := horig e (List.mem_cons_of_mem kv he) _ hx
            omega)
        have happ : applyRemap (kv :: rest) v = -kv.1 := by
          simp only [applyRemap, List.foldl_cons, if_pos hmem]
          exact hkeep
        have hfind : (kv :: rest).find? (fun e => decide (v ∈ e.2.original)) = some kv :=
          List.find?_cons_of_pos rest (by simpa using hmem)
        simp only [reclassifyPixel, happ, firstMatchCode, hfind, abs_neg,
          abs_of_nonneg (by omega : (0 : Int) ≤ kv.1)]
        rfl
      · have happ : applyRemap (kv :: rest) v = applyRemap rest v := by
          simp only [applyRemap, List.foldl_cons, if_neg hmem]
        have hfind : (kv :: rest).find? (fun e => decide (v ∈ e.2.original))
            = rest.find? (fun e => decide (v ∈ e.2.original)) :=
          List.find?_cons_of_neg rest (by simpa using hmem)
        simp only [reclassifyPixel, happ, firstMatchCode, hfind]
        exact ih (fun e he => hcode e (List.mem_cons_of_mem kv he))
          (fun e he => horig e (List.mem_cons_of_mem kv he))

/-- Positional access through `map`. -/
theorem getD_map_lt {α β : Type} (f : α → β) (l : List α) (i : Nat) (d : α) (e : β)
    (h : i < l.length) : (l.map f).getD i e = f (l.getD i d) := by
  induction l generalizing i with
  | nil => simp at h
  | cons a rest ih =>
      cases i with
      | zero => rfl
      | succ n =>
          simp only [List.map_cons, List.getD_cons_succ]
          exact ih n (Nat.lt_of_succ_lt_succ h)

/-- `getD` inside the list bounds yields a member. -/
theorem getD_mem_of_lt {α : Type} (l : List α) (i : Nat) (d : α) (h : i < l.length) :
    l.getD i d ∈ l := by
  induction l generalizing i with
  | nil => simp at h
  | cons a rest ih =>
      cases i with
      | zero => exact List.mem_cons_self a rest
      | succ n =>
          simp only [List.getD_cons_succ]
          exact List.mem_cons_of_mem a (ih n (Nat.lt_of_succ_lt_succ h))

/-- Claim C2: over the uint8 raw domain (codes `1..255`, source codes and
raster values non-negative), a pixel contained in exactly one spec's
`original` set is mapped to that spec's code, and a pixel contained in no
spec's `original` set passes through unchanged. -/
theorem reclassify_partition_unique (remap : List (Int × PixelRemapSpec))
    (band : List Int) (i : Nat)
    (hcode : ∀ kv ∈ remap, 1 ≤ kv.1)
    (horig : ∀ kv ∈ remap, ∀ x ∈ kv.2.original, 0 ≤ x)
    (hband : ∀ v ∈ band, 0 ≤ v)
    (hi : i < band.length) :
    (∀ kv ∈ remap, band.getD i 0 ∈ kv.2.original →
        (∀ kv2 ∈ remap, band.getD i 0 ∈ kv2.2.original → kv2 = kv) →
        (reclassify_raster remap band).getD i 0 = kv.1) ∧
    ((∀ kv ∈ remap, band.getD i 0 ∉ kv.2.original) →
        (reclassify_raster remap band).getD i 0 = band.getD i 0) := by
  have hv0 : 0 ≤ band.getD i 0 := hband _ (getD_mem_of_lt band i 0 hi)
  have hout : (reclassify_raster remap band).getD i 0
      = reclassifyPixel remap (band.getD i 0) := by
    unfold reclassify_raster
    exact getD_map_lt (reclassifyPixel remap) band i 0 0 hi
  rw [hout, reclassifyPixel_eq_firstMatch remap _ hcode horig hv0]
  constructor
  · intro kv hkv hvmem huniq
    have hsome : (remap.find? (fun e => decide (band.getD i 0 ∈ e.2.original))).isSome :=
      List.find?_isSome.mpr ⟨kv, hkv, by simpa using hvmem⟩
    obtain ⟨kv0, hkv0⟩ := Option.isSome_iff_exists.mp hsome
    have hmem0 := List.mem_of_find?_eq_some hkv0
    have hp0 := List.find?_some hkv0
    have heq : kv0 = kv := huniq kv0 hmem0 (by simpa using hp0)
    unfold firstMatchCode
    rw [hkv0, heq]
    rfl
  · intro hnone
    have hnonefind : remap.find? (fun e => decide (band.getD i 0 ∈ e.2.original)) = none :=
      List.find?_eq_none.mpr (fun e he => by simpa using hnone e he)
    unfold firstMatchCode
    rw [hnonefind]
    rfl

/-- The two-spec table used to witness claim C2. -/
def c2table : List (Int × PixelRemapSpec) :=
  [ (1, { color := (0, 0, 0), name := "A", original := [5] })
  , (2, { color := (0, 0, 0), name := "B", original := [6] }) ]

/-- Witness for claim C2: on raster `[5, 7]` the pixel `5` (contained only
in the first spec) maps to code `1` and the unmatched pixel `7` passes
through. -/
theorem reclassify_partition_unique_witness :
    (reclassify_raster c2table [5, 7]).getD 0 0 = 1 ∧
    (reclassify_raster c2table [5, 7]).getD 1 0 = 7 := by
  have h0 := reclassify_partition_unique c2table [5, 7] 0
    (by decide) (by decide) (by decide) (by decide)
  have h1 := reclassify_partition_unique c2table [5, 7] 1
    (by decide) (by decide) (by decide) (by decide)
  refine ⟨h0.1 (1, { color := (0, 0, 0), name := "A", original := [5] })
    (by decide) (by decide) (by decide), h1.2 (by decide)⟩

/-- Two specs whose `original` sets overlap on raw code `5`. -/
def c4table : List (Int × PixelRemapSpec) :=
  [ (1, { color := (0, 0, 0), name := "A", original := [5] })
  , (2, { color := (0, 0, 0), name := "B", original := [5] }) ]

/-- Counterexample for claim C4: raw value `5` lies in the `original` sets
of both specs, yet the reclassifier outputs the code of the *first* spec
(`1`), not the last (`2`): the first match negates the pixel, so the
second spec never re-matches it. -/
theorem remap_overlap_first_wins_cex :
    reclassify_raster c4table [5] = [1] ∧ reclassify_raster c4table [5] ≠ [2] := by
  decide

/-- Claim C4 (amended): when specs overlap, a pixel contained in several
specs' `original` sets is assigned the code of the *first* such spec in
table iteration order (the `find?` hypothesis names that first spec). -/
theorem remap_overlap_first_wins (remap : List (Int × PixelRemapSpec)) (v : Int)
    (kv : Int × PixelRemapSpec)
    (hcode : ∀ e ∈ remap, 1 ≤ e.1)
    (horig : ∀ e ∈ remap, ∀ x ∈ e.2.original, 0 ≤ x)
    (hv : 0 ≤ v)
    (hfirst : remap.find? (fun e => decide (v ∈ e.2.original)) = some kv) :
    reclassifyPixel remap v = kv.1 := by
  rw [reclassifyPixel_eq_firstMatch remap v hcode horig hv]
  unfold firstMatchCode
  rw [hfirst]
  rfl

/-- Witness for claim C4 (amended): on the overlapping table the raw value
`5` receives the first spec's code `1`. -/
theorem remap_overlap_first_wins_witness : reclassifyPixel c4table 5 = 1 :=
  remap_overlap_first_wins c4table 5
    (1, { color := (0, 0, 0), name := "A", original := [5] })
    (by decide) (by decide) (by decide) (by decide)

/-- Claim C9: every reclassifier output pixel is non-negative because the
absolute value is applied after the spec loop; a negative raw value that
no spec matches comes out as its absolute value, not as itself. -/
theorem reclassify_nonneg_abs (remap : List (Int × PixelRemapSpec)) (v : Int) :
    0 ≤ reclassifyPixel remap v ∧
    (v < 0 → (∀ kv ∈ remap, v ∉ kv.2.original) →
      reclassifyPixel remap v = -v ∧ reclassifyPixel remap v ≠ v) := by
  refine ⟨abs_nonneg _, fun hneg hnm => ?_⟩
  have h := applyRemap_no_match remap v hnm
  constructor
  · unfold reclassifyPixel
    rw [h, abs_of_neg hneg]
  · unfold reclassifyPixel
    rw [h, abs_of_neg hneg]
    omega

/-- Witness for claim C9: the unmatched negative raw value `-7` comes out
as `7`. -/
theorem reclassify_nonneg_abs_witness :
    0 ≤ reclassifyPixel c2table (-7) ∧ reclassifyPixel c2table (-7) = 7 := by
  have h := reclassify_nonneg_abs c2table (-7)
  have h2 := h.2 (by decide) (by decide)
  exact ⟨h.1, by rw [h2.1]; decide⟩

/-- The overwrite fold of the diff encoder computes the last matching
spec's code, falling back to the initial value. -/
theorem diffPixel_foldl_eq_lastMatch (remap : List (Int × PixelDiffSpec)) (f t a : Int) :
    remap.foldl (fun acc kv => if f ∈ kv.2.fromClasses ∧ t ∈ kv.2.toClasses then kv.1 else acc) a
      = (((remap.filter (fun kv => decide (f ∈ kv.2.fromClasses)
            && decide (t ∈ kv.2.toClasses))).getLast?).map (fun kv => kv.1)).getD a := by
  induction remap generalizing a with
  | nil => rfl
  | cons kv rest ih =>
      by_cases hm : f ∈ kv.2.fromClasses ∧ t ∈ kv.2.toClasses
      · rw [List.foldl_cons, if_pos hm,
          List.filter_cons_of_pos (by simp [hm.1, hm.2]), ih kv.1]
        cases hfr : rest.filter (fun kv => decide (f ∈ kv.2.fromClasses)
            && decide (t ∈ kv.2.toClasses)) with
        | nil => rfl
        | cons x xs =>
            rw [List.getLast?_cons_cons, List.getLast?_eq_getLast (x :: xs) (by simp)]
            rfl
      · rw [List.foldl_cons, if_neg hm,
          List.filter_cons_of_neg (by simpa using hm)]
        exact ih a

/-- Positional access through `zipWith` inside the common bounds. -/
theorem getD_zipWith_lt {α : Type} (g : α → α → α) (l1 l2 : List α) (i : Nat) (d : α)
    (h1 : i < l1.length) (h2 : i < l2.length) :
    (List.zipWith g l1 l2).getD i d = g (l1.getD i d) (l2.getD i d) := by
  induction l1 generalizing l2 i with
  | nil => simp at h1
  | cons a r ih =>
      cases l2 with
      | nil => simp at h2
      | cons b s =>
          cases i with
          | zero => rfl
          | succ n =>
              simp only [List.zipWith_cons_cons, List.getD_cons_succ]
              exact ih s n (Nat.lt_of_succ_lt_succ h1) (Nat.lt_of_succ_lt_succ h2)

/-- Claim C3: for equal-length rasters and a diff table without code `0`,
the encoder returns normally, each output pixel is the code of the last
matching DiffSpec in table order, and a pixel is `0` exactly when no spec
matches its from/to pair. -/
theorem diff_last_match_and_zero (from_data to_data : List Int)
    (remap : List (Int × PixelDiffSpec))
    (hlen : from_data.length = to_data.length)
    (h0 : ∀ kv ∈ remap, kv.1 ≠ 0) :
    ∃ out, compute_raster_class_difference from_data to_data remap = Except.ok out ∧
      out.length = from_data.length ∧
      ∀ i, i < out.length →
        out.getD i 0 = (lastMatchingCode remap (from_data.getD i 0) (to_data.getD i 0)).getD 0 ∧
        (out.getD i 0 = 0 ↔ ∀ kv ∈ remap,
          ¬(from_data.getD i 0 ∈ kv.2.fromClasses ∧ to_data.getD i 0 ∈ kv.2.toClasses)) := by
  have hany : remap.any (fun kv => kv.1 == 0) = false := by
    rw [List.any_eq_false]
    intro kv hkv
    simpa using h0 kv hkv
  refine ⟨List.zipWith (diffPixel remap) from_data to_data, ?_, ?_, ?_⟩
  · unfold compute_raster_class_difference
    rw [if_neg (by omega), if_neg (by rw [hany]; exact Bool.false_ne_true)]
  · rw [List.length_zipWith, hlen, Nat.min_self]
  · intro i hi
    rw [List.length_zipWith] at hi
    have h1 : i < from_data.length := lt_of_lt_of_le hi (Nat.min_le_left _ _)
    have h2 : i < to_data.length := lt_of_lt_of_le hi (Nat.min_le_right _ _)
    have hval : (List.zipWith (diffPixel remap) from_data to_data).getD i 0
        = diffPixel remap (from_data.getD i 0) (to_data.getD i 0) :=
      getD_zipWith_lt (diffPixel remap) from_data to_data i 0 h1 h2
    have hlast : diffPixel remap (from_data.getD i 0) (to_data.getD i 0)
        = (lastMatchingCode remap (from_data.getD i 0) (to_data.getD i 0)).getD 0 :=
      diffPixel_foldl_eq_lastMatch remap _ _ 0
    refine ⟨hval.trans hlast, ?_⟩
    rw [hval, hlast]
    constructor
    · intro hz kv hkv hc
      have hmemf : kv ∈ remap.filter (fun kv => decide (from_data.getD i 0 ∈ kv.2.fromClasses)
          && decide (to_data.getD i 0 ∈ kv.2.toClasses)) :=
        List.mem_filter.mpr ⟨hkv, by simpa using hc⟩
      have hne : remap.filter (fun kv => decide (from_data.getD i 0 ∈ kv.2.fromClasses)
          && decide (to_data.getD i 0 ∈ kv.2.toClasses)) ≠ [] :=
        List.ne_nil_of_mem hmemf
      have hgl := List.getLast?_eq_getLast _ hne
      have hglmem := List.getLast_mem hne
      have hglr : (remap.filter (fun kv => decide (from_data.getD i 0 ∈ kv.2.fromClasses)
          && decide (to_data.getD i 0 ∈ kv.2.toClasses))).getLast hne ∈ remap :=
        List.mem_of_mem_filter hglmem
      rw [lastMatchingCode, hgl] at hz
      exact h0 _ hglr hz
    · intro hnm
      have hfe : remap.filter (fun kv => decide (from_data.getD i 0 ∈ kv.2.fromClasses)
          && decide (to_data.getD i 0 ∈ kv.2.toClasses)) = [] := by
        rw [List.filter_eq_nil_iff]
        intro kv hkv
        simpa using hnm kv hkv
      rw [lastMatchingCode, hfe]
      rfl

/-- Witness for claim C3, instantiated at the aggregator's own diff table
on the rasters `[1, 0]` and `[0, 1]`. -/
theorem diff_last_match_and_zero_witness :
    ∃ out, compute_raster_class_difference [1, 0] [0, 1] trajDiffRemap = Except.ok out ∧
      out.length = ([1, 0] : List Int).length ∧
      ∀ i, i < out.length →
        out.getD i 0 = (lastMatchingCode trajDiffRemap (([1, 0] : List Int).getD i 0)
          (([0, 1] : List Int).getD i 0)).getD 0 ∧
        (out.getD i 0 = 0 ↔ ∀ kv ∈ trajDiffRemap,
          ¬(([1, 0] : List Int).getD i 0 ∈ kv.2.fromClasses ∧
            ([0, 1] : List Int).getD i 0 ∈ kv.2.toClasses)) :=
  diff_last_match_and_zero [1, 0] [0, 1] trajDiffRemap rfl (by decide)

/-- Claim C6: the diff encoder fails exactly when the rasters differ in
shape or the table maps code `0`; otherwise it returns the reclassified
difference raster normally. -/
theorem diff_error_iff (from_data to_data : List Int) (remap : List (Int × PixelDiffSpec)) :
    ((∃ msg, compute_raster_class_difference from_data to_data remap = Except.error msg) ↔
      (from_data.length ≠ to_data.length ∨ ∃ kv ∈ remap, kv.1 = 0)) ∧
    ((from_data.length = to_data.length ∧ ∀ kv ∈ remap, kv.1 ≠ 0) →
      compute_raster_class_difference from_data to_data remap =
        Except.ok (List.zipWith (diffPixel remap) from_data to_data)) := by
  unfold compute_raster_class_difference
  constructor
  · constructor
    · rintro ⟨msg, hmsg⟩
      by_cases h1 : from_data.length ≠ to_data.length
      · exact Or.inl h1
      · right
        rw [if_neg h1] at hmsg
        by_cases h2 : remap.any (fun kv => kv.1 == 0) = true
        · obtain ⟨kv, hkv, hz⟩ := List.any_eq_true.mp h2
          exact ⟨kv, hkv, by simpa using hz⟩
        · rw [if_neg h2] at hmsg
          simp at hmsg
    · intro h
      by_cases h1 : from_data.length ≠ to_data.length
      · exact ⟨_, by rw [if_pos h1]⟩
      · rcases h with h | h2
        · exact absurd h h1
        · have hany : remap.any (fun kv => kv.1 == 0) = true := by
            obtain ⟨kv, hkv, hz⟩ := h2
            exact List.any_eq_true.mpr ⟨kv, hkv, by simpa using hz⟩
          exact ⟨_, by rw [if_neg h1, if_pos hany]⟩
  · rintro ⟨hlen, h0⟩
    have hany : remap.any (fun kv => kv.1 == 0) = false := by
      rw [List.any_eq_false]
      intro kv hkv
      simpa using h0 kv hkv
    rw [if_neg (by omega), if_neg (by rw [hany]; exact Bool.false_ne_true)]

/-- Witness for claim C6: a shape mismatch yields an error, and the
well-formed call on equal-length rasters returns normally. -/
theorem diff_error_iff_witness :
    (∃ msg, compute_raster_class_difference [1] [1, 2] trajDiffRemap = Except.error msg) ∧
    compute_raster_class_difference [0] [1] trajDiffRemap =
      Except.ok (List.zipWith (diffPixel trajDiffRemap) [0] [1]) :=
  ⟨(diff_error_iff [1] [1, 2] trajDiffRemap).1.mpr (Or.inl (by decide)),
   (diff_error_iff [0] [1] trajDiffRemap).2 ⟨rfl, by decide⟩⟩

/-- Swapping every spec's `from`/`to` classes swaps the arguments of the
per-pixel diff. -/
theorem diffPixel_swap (remap : List (Int × PixelDiffSpec)) (x y : Int) :
    diffPixel (remap.map swapDiffSpec) x y = diffPixel remap y x := by
  unfold diffPixel
  suffices h : ∀ a : Int,
      (remap.map swapDiffSpec).foldl
        (fun acc kv => if x ∈ kv.2.fromClasses ∧ y ∈ kv.2.toClasses then kv.1 else acc) a
      = remap.foldl
        (fun acc kv => if y ∈ kv.2.fromClasses ∧ x ∈ kv.2.toClasses then kv.1 else acc) a from
    h 0
  intro a
  induction remap generalizing a with
  | nil => rfl
  | cons kv rest ih =>
      simp only [List.map_cons, List.foldl_cons, swapDiffSpec]
      by_cases hc : y ∈ kv.2.fromClasses ∧ x ∈ kv.2.toClasses
      · rw [if_pos ⟨hc.2, hc.1⟩, if_pos hc]
        exact ih kv.1
      · rw [if_neg (fun h => hc ⟨h.2, h.1⟩), if_neg hc]
        exact ih a

/-- Claim C7: swapping the from/to rasters together with every spec's
from/to class lists reproduces the diff exactly. -/
theorem diff_swap_symmetry (a b : List Int) (remap : List (Int × PixelDiffSpec))
    (hlen : a.length = b.length) :
    compute_raster_class_difference b a (remap.map swapDiffSpec) =
      compute_raster_class_difference a b remap := by
  unfold compute_raster_class_difference
  have h1 : ¬(b.length ≠ a.length) := by omega
  have h2 : ¬(a.length ≠ b.length) := by omega
  have hcomp : ((fun kv : Int × PixelDiffSpec => kv.1 == 0) ∘ swapDiffSpec)
      = (fun kv : Int × PixelDiffSpec => kv.1 == 0) := rfl
  rw [if_neg h1, if_neg h2, List.any_map, hcomp]
  by_cases h0 : remap.any (fun kv => kv.1 == 0) = true
  · rw [if_pos h0, if_pos h0]
  · rw [if_neg h0, if_neg h0]
    have hfun : (fun x y => diffPixel (remap.map swapDiffSpec) y x) = diffPixel remap := by
      funext x y
      exact diffPixel_swap remap y x
    rw [List.zipWith_comm (diffPixel (remap.map swapDiffSpec)) b a, hfun]

/-- Witness for claim C7 at a concrete pair of rasters and the
aggregator's diff table. -/
theorem diff_swap_symmetry_witness :
    compute_raster_class_difference [1, 0] [0, 1] (trajDiffRemap.map swapDiffSpec) =
      compute_raster_class_difference [0, 1] [1, 0] trajDiffRemap :=
  diff_swap_symmetry [0, 1] [1, 0] trajDiffRemap rfl

/-- After any poll the watcher's remembered value equals the value it just
read, whether or not the callback fired. -/
theorem watch_counter_poll_last (n : Nat) (w : WatcherState) (c : Int) :
    (watch_counter_poll n w c).last_value = c := by
  unfold watch_counter_poll
  by_cases h : c ≠ w.last_value
  · rw [if_pos h]
  · rw [if_neg h]
    exact (not_ne_iff.mp h).symm

/-- Claim C10: on an observed change the watcher calls a 1-parameter
callback with the new value and a 2-parameter callback with the new and
previous values; a callback declaring any other parameter count is never
invoked, yet `last_value` still advances, losing the delta. -/
theorem watch_counter_dispatch (n : Nat) (s : WatcherState) (v : Int)
    (h : v ≠ s.last_value) :
    (watch_counter_poll n s v).last_value = v ∧
    (n = 1 → (watch_counter_poll n s v).calls = s.calls ++ [[v]]) ∧
    (n = 2 → (watch_counter_poll n s v).calls = s.calls ++ [[v, s.last_value]]) ∧
    (n ≠ 1 → n ≠ 2 → (watch_counter_poll n s v).calls = s.calls) := by
  unfold watch_counter_poll
  rw [if_pos h]
  refine ⟨rfl, fun h1 => ?_, fun h2 => ?_, fun h1 h2 => ?_⟩
  · simp [h1]
  · simp [h2]
  · simp [h1, h2]

/-- Witness for claim C10: a 0/3-parameter-style callback (here declared
with three parameters) is never invoked on the change 0 to 5, while the
remembered value still advances to 5. -/
theorem watch_counter_dispatch_witness :
    (5 : Int) ≠ (WatcherState.mk 0 []).last_value ∧
    (watch_counter_poll 3 (WatcherState.mk 0 []) 5).calls = [] ∧
    (watch_counter_poll 3 (WatcherState.mk 0 []) 5).last_value = 5 := by
  have h : (5 : Int) ≠ (WatcherState.mk 0 []).last_value := by decide
  have hd := watch_counter_dispatch 3 (WatcherState.mk 0 []) 5 h
  exact ⟨h, by rw [hd.2.2.2 (by decide) (by decide)], hd.1⟩

/-- On an observed change the documented 2-parameter callback receives
the new and previous values. -/
theorem watch_counter_poll_two_calls (w : WatcherState) (c : Int) (h : c ≠ w.last_value) :
    (watch_counter_poll 2 w c).calls = w.calls ++ [[c, w.last_value]] := by
  unfold watch_counter_poll
  rw [if_pos h]
  norm_num

/-- Invariant of the 2-parameter watcher: the reported deltas telescope,
so their sum always equals the watcher's remembered value. -/
theorem reportedDeltaSum_eq_last (events : List CounterEvent) :
    reportedDeltaSum (runCounter events) = (runCounter events).watcher.last_value := by
  suffices h : ∀ s : CounterSystem,
      (s.watcher.calls.map callDelta).sum = s.watcher.last_value →
      ((events.foldl counterStep s).watcher.calls.map callDelta).sum
        = (events.foldl counterStep s).watcher.last_value by
    exact h _ (by simp)
  induction events with
  | nil => exact fun s hs => hs
  | cons e rest ih =>
      intro s hs
      rw [List.foldl_cons]
      apply ih
      cases e with
      | inc => exact hs
      | poll =>
          simp only [counterStep]
          by_cases h : s.counter ≠ s.watcher.last_value
          · rw [watch_counter_poll_two_calls s.watcher s.counter h,
              watch_counter_poll_last, List.map_append, List.sum_append, hs]
            have hc : (List.map callDelta [[s.counter, s.watcher.last_value]]).sum
                = s.counter - s.watcher.last_value := by
              simp [callDelta]
            rw [hc]
            ring
          · have hnc : watch_counter_poll 2 s.watcher s.counter = s.watcher := by
              unfold watch_counter_poll
              rw [if_neg h]
            rw [hnc]
            exact hs

/-- The shared counter counts exactly the worker increments. -/
theorem runCounter_counter (events : List CounterEvent) :
    (runCounter events).counter = (countIncs events : Int) := by
  suffices h : ∀ s : CounterSystem,
      (events.foldl counterStep s).counter = s.counter + (countIncs events : Int) by
    have := h { counter := 0, watcher := { last_value := 0, calls := [] } }
    unfold runCounter
    rw [this]
    ring
  induction events with
  | nil =>
      intro s
      simp [countIncs]
  | cons e rest ih =>
      intro s
      rw [List.foldl_cons]
      cases e with
      | inc =>
          rw [ih]
          have hcnt : countIncs (CounterEvent.inc :: rest) = countIncs rest + 1 := by
            simp [countIncs, List.countP_cons]
          rw [hcnt]
          simp only [counterStep]
          push_cast
          ring
      | poll =>
          rw [ih]
          have hcnt : countIncs (CounterEvent.poll :: rest) = countIncs rest := by
            simp [countIncs, List.countP_cons]
          rw [hcnt]
          rfl

/-- Once the remembered value has caught up with the counter, a stretch of
events without increments keeps them equal: polls observe no change. -/
theorem last_eq_counter_of_no_inc (ys : List CounterEvent) (s : CounterSystem)
    (hys : ∀ e ∈ ys, e ≠ CounterEvent.inc)
    (hs : s.watcher.last_value = s.counter) :
    (ys.foldl counterStep s).watcher.last_value = (ys.foldl counterStep s).counter := by
  induction ys generalizing s with
  | nil => exact hs
  | cons e rest ih =>
      cases e with
      | inc => exact absurd rfl (hys _ (List.mem_cons_self _ _))
      | poll =>
          rw [List.foldl_cons]
          apply ih _ (fun e he => hys e (List.mem_cons_of_mem _ he))
          simp only [counterStep]
          rw [watch_counter_poll_last]

/-- Claim C8 (amended): with a poll between consecutive increments *and*
some poll after the final increment, the reported deltas sum to exactly
the number of increments; the scope exit itself flushes nothing. -/
theorem counter_sum_with_final_poll (tr : List CounterEvent)
    (hsep : incsSeparatedByPoll false tr = true)
    (hfinal : ∃ xs ys, tr = xs ++ CounterEvent.poll :: ys ∧
      ∀ e ∈ ys, e ≠ CounterEvent.inc) :
    reportedDeltaSum (runCounter tr) = (countIncs tr : Int) := by
  obtain ⟨xs, ys, htr, hys⟩ := hfinal
  rw [reportedDeltaSum_eq_last, ← runCounter_counter]
  subst htr
  unfold runCounter
  rw [List.foldl_append, List.foldl_cons]
  apply last_eq_counter_of_no_inc ys _ hys
  simp only [counterStep]
  rw [watch_counter_poll_last]

/-- Witness for claim C8 (amended): one increment followed by one poll
reports a delta sum of exactly one. -/
theorem counter_sum_with_final_poll_witness :
    incsSeparatedByPoll false [CounterEvent.inc, CounterEvent.poll] = true ∧
    reportedDeltaSum (runCounter [CounterEvent.inc, CounterEvent.poll])
      = (countIncs [CounterEvent.inc, CounterEvent.poll] : Int) :=
  ⟨by decide, counter_sum_with_final_poll [CounterEvent.inc, CounterEvent.poll] (by decide)
      ⟨[CounterEvent.inc], [], rfl, by decide⟩⟩

/-- Counterexample for claim C8: the trace inc, poll, inc has a poll
between its two consecutive increments, yet only a delta sum of 1 is ever
reported for its 2 increments — the final increment is dropped because
the scope exit (`finally: pass`) performs no closing poll. -/
theorem counter_final_increment_dropped :
    incsSeparatedByPoll false [CounterEvent.inc, CounterEvent.poll, CounterEvent.inc] = true ∧
    countIncs [CounterEvent.inc, CounterEvent.poll, CounterEvent.inc] = 2 ∧
    reportedDeltaSum (runCounter [CounterEvent.inc, CounterEvent.poll, CounterEvent.inc]) = 1 := by
  decide

/-- Counterexample for claim C1: on the fixture the aggregator's output
contains the entry A with count 1 — pixel 2 (class A in every year) does
produce the non-empty label A, seeded by the first year's boolean raster,
so the returned histogram is not the claimed two-entry one. -/
theorem fixture_pixel2_contributes :
    (((calculate_pixel_trajectories fixtureSpec fixtureRasters).toOption.getD []).lookup
      "A".toList) = some 1 ∧
    calculate_pixel_trajectories fixtureSpec fixtureRasters ≠
      Except.ok [("A → B".toList, 1), ("A → B → A".toList, 1)] ∧
    calculate_pixel_trajectories fixtureSpec fixtureRasters ≠
      Except.ok [("A → B → A".toList, 1), ("A → B".toList, 1)] := by
  refine ⟨by decide, fun h => ?_, fun h => ?_⟩
  · have h2 : ([("A → B → A".toList, 1), ("A → B".toList, 1), ("A".toList, 1)]
        : List (List Char × Nat)) = [("A → B".toList, 1), ("A → B → A".toList, 1)] := by
      have h0 : calculate_pixel_trajectories fixtureSpec fixtureRasters =
          Except.ok [("A → B → A".toList, 1), ("A → B".toList, 1), ("A".toList, 1)] := by rfl
      exact Except.ok.inj (h0.symm.trans h)
    exact absurd (congrArg List.length h2) (by decide)
  · have h2 : ([("A → B → A".toList, 1), ("A → B".toList, 1), ("A".toList, 1)]
        : List (List Char × Nat)) = [("A → B → A".toList, 1), ("A → B".toList, 1)] := by
      have h0 : calculate_pixel_trajectories fixtureSpec fixtureRasters =
          Except.ok [("A → B → A".toList, 1), ("A → B".toList, 1), ("A".toList, 1)] := by rfl
      exact Except.ok.inj (h0.symm.trans h)
    exact absurd (congrArg List.length h2) (by decide)

/-- Claim C1 (amended): on the fixture the aggregator returns exactly the
histogram with entries A to B to A, A to B and A, each with count 1;
pixel 2 (index 1, class A in every year) produces the label A followed by
the arrow separator, and therefore contributes the entry A. -/
theorem fixture_trajectories_amended :
    calculate_pixel_trajectories fixtureSpec fixtureRasters =
      Except.ok [("A → B → A".toList, 1), ("A → B".toList, 1), ("A".toList, 1)] ∧
    aggSeries fixtureSpec fixtureRasters = Except.ok fixtureSeries ∧
    pixelTrajectory (aggClassNames fixtureSpec) fixtureSeries 3 1 = "A → ".toList := by
  exact ⟨rfl, rfl, rfl⟩

/-- The single-class table used by the C5 counterexample. -/
def c5table : List (Int × PixelRemapSpec) :=
  [(1, { color := (0, 0, 0), name := "A", original := [1] })]

/-- Counterexample for claim C5: a 1-pixel, 2-year stack whose pixel is
background (code 0, never gaining the class) aggregates without any
per-pixel error to an empty histogram, whose value total 0 is strictly
below the pixel count 1 — empty labels are excluded even in error-free
runs. -/
theorem trajectory_sum_not_total_cex :
    calculate_pixel_trajectories c5table [[0], [0]] = Except.ok [] ∧
    sumVals [] = 0 ∧ ([0] : List Int).length = 1 := by
  exact ⟨rfl, rfl, rfl⟩

/-- A key is in the dict exactly when `any` finds it. -/
theorem dict_contains_iff (d : List (List Char × Nat)) (k : List Char) :
    d.any (fun kv => kv.1 == k) = true ↔ k ∈ keysOf d := by
  rw [List.any_eq_true]
  constructor
  · rintro ⟨kv, hkv, hb⟩
    have hk : kv.1 = k := by simpa using hb
    exact hk ▸ List.mem_map_of_mem _ hkv
  · intro hk
    obtain ⟨kv, hkv, hfst⟩ := List.mem_map.mp hk
    exact ⟨kv, hkv, by simpa using hfst⟩

/-- Setting a fresh key appends the entry. -/
theorem dictSet_absent (d : List (List Char × Nat)) (k : List Char) (v : Nat)
    (h : k ∉ keysOf d) : dictSet d k v = d ++ [(k, v)] := by
  unfold dictSet
  rw [if_neg (fun hany => h ((dict_contains_iff d k).mp hany))]

/-- The in-place update of an existing key leaves the key sequence
unchanged. -/
theorem keysOf_map_update (d : List (List Char × Nat)) (k : List Char) (v : Nat) :
    keysOf (d.map (fun kv => if kv.1 == k then (k, v) else kv)) = keysOf d := by
  unfold keysOf
  rw [List.map_map]
  apply List.map_congr_left
  intro kv _
  by_cases hb : (kv.1 == k) = true
  · simp only [Function.comp_apply, if_pos hb]
    exact (by simpa using hb : kv.1 = k).symm
  · simp only [Function.comp_apply, if_neg hb]

/-- Updating entries whose key is absent is the identity. -/
theorem map_update_no_key (rest : List (List Char × Nat)) (k : List Char) (v : Nat)
    (h : k ∉ keysOf rest) :
    rest.map (fun kv => if kv.1 == k then (k, v) else kv) = rest := by
  induction rest with
  | nil => rfl
  | cons kv r ih =>
      have h1 : (kv.1 == k) = false := by
        apply beq_eq_false_iff_ne.mpr
        intro he
        exact h (by rw [← he]; exact List.mem_map_of_mem _ (List.mem_cons_self _ _))
      rw [List.map_cons, if_neg (by simp [h1])]
      rw [ih (fun hm => h (List.mem_cons_of_mem _ hm))]

/-- Value accounting for the in-place update of an existing key. -/
theorem sumVals_map_update (d : List (List Char × Nat)) (k : List Char) (v : Nat)
    (hnd : (keysOf d).Nodup) (h : k ∈ keysOf d) :
    sumVals (d.map (fun kv => if kv.1 == k then (k, v) else kv)) + dictGet d k
      = sumVals d + v := by
  induction d with
  | nil => simp [keysOf] at h
  | cons kv rest ih =>
      have hkeys : keysOf (kv :: rest) = kv.1 :: keysOf rest := rfl
      rw [hkeys] at hnd h
      by_cases hb : (kv.1 == k) = true
      · have hkeq : kv.1 = k := by simpa using hb
        have hknr : k ∉ keysOf rest := hkeq ▸ (List.nodup_cons.mp hnd).1
        have hget : dictGet (kv :: rest) k = kv.2 := by
          unfold dictGet
          rw [@List.find?_cons_of_pos _ (fun kv => kv.1 == k) kv rest hb]
        rw [List.map_cons, if_pos hb, map_update_no_key rest k v hknr, hget]
        simp only [sumVals, List.map_cons, List.sum_cons]
        omega
      · have hget : dictGet (kv :: rest) k = dictGet rest k := by
          unfold dictGet
          rw [@List.find?_cons_of_neg _ (fun kv => kv.1 == k) kv rest hb]
        have hkr : k ∈ keysOf rest := by
          cases List.mem_cons.mp h with
          | inl he => exact absurd (by simp [he]) hb
          | inr hm => exact hm
        have hndr : (keysOf rest).Nodup := (List.nodup_cons.mp hnd).2
        rw [List.map_cons, if_neg hb, hget]
        have hrec := ih hndr hkr
        simp only [sumVals, List.map_cons, List.sum_cons] at hrec ⊢
        omega

/-- The key is absent exactly when `find?` fails, in which case `get`
defaults to zero. -/
theorem dictGet_absent (d : List (List Char × Nat)) (k : List Char) (h : k ∉ keysOf d) :
    dictGet d k = 0 := by
  unfold dictGet
  rw [List.find?_eq_none.mpr]
  intro kv hkv hb
  exact h ((by simpa using hb : kv.1 = k) ▸ List.mem_map_of_mem _ hkv)

/-- One histogram increment adds exactly one to the value total. -/
theorem sumVals_dictIncr (d : List (List Char × Nat)) (k : List Char)
    (hnd : (keysOf d).Nodup) : sumVals (dictIncr d k) = sumVals d + 1 := by
  by_cases hk : k ∈ keysOf d
  · unfold dictIncr dictSet
    rw [if_pos ((dict_contains_iff d k).mpr hk)]
    have h := sumVals_map_update d k (dictGet d k + 1) hnd hk
    omega
  · unfold dictIncr
    rw [dictSet_absent d k _ hk, dictGet_absent d k hk]
    simp [sumVals]

/-- Every key after an increment is an old key or the incremented one. -/
theorem keysOf_dictIncr (d : List (List Char × Nat)) (k : List Char) :
    ∀ k2 ∈ keysOf (dictIncr d k), k2 ∈ keysOf d ∨ k2 = k := by
  unfold dictIncr dictSet
  by_cases hc : d.any (fun kv => kv.1 == k) = true
  · rw [if_pos hc, keysOf_map_update]
    exact fun k2 hk2 => Or.inl hk2
  · rw [if_neg hc]
    intro k2 hk2
    unfold keysOf at hk2
    rw [List.map_append, List.mem_append] at hk2
    cases hk2 with
    | inl hm => exact Or.inl hm
    | inr hm => exact Or.inr (by simpa using hm)

/-- Increments keep the key sequence duplicate-free. -/
theorem nodup_keys_dictIncr (d : List (List Char × Nat)) (k : List Char)
    (hnd : (keysOf d).Nodup) : (keysOf (dictIncr d k)).Nodup := by
  unfold dictIncr dictSet
  by_cases hc : d.any (fun kv => kv.1 == k) = true
  · rw [if_pos hc, keysOf_map_update]
    exact hnd
  · rw [if_neg hc]
    have hk : k ∉ keysOf d := fun hm => hc ((dict_contains_iff d k).mpr hm)
    unfold keysOf
    rw [List.map_append]
    simp only [List.map_cons, List.map_nil]
    rw [List.nodup_append]
    refine ⟨hnd, List.nodup_singleton k, ?_⟩
    intro a ha hb
    rw [List.mem_singleton] at hb
    exact hk (hb ▸ ha)

/-- The histogram fold counts exactly the non-empty labels it consumes. -/
theorem buildCounts_foldl_sum (labels : List (List Char)) :
    ∀ d : List (List Char × Nat), (keysOf d).Nodup →
      sumVals (labels.foldl (fun d l => if l = [] then d else dictIncr d l) d)
        = sumVals d + labels.countP (fun l => decide (l ≠ [])) := by
  induction labels with
  | nil =>
      intro d _
      simp
  | cons l rest ih =>
      intro d hnd
      rw [List.foldl_cons, List.countP_cons]
      by_cases hl : l = []
      · rw [if_pos hl, ih d hnd]
        simp [hl]
      · rw [if_neg hl, ih (dictIncr d l) (nodup_keys_dictIncr d l hnd),
          sumVals_dictIncr d l hnd]
        simp only [decide_eq_true hl, if_pos]
        omega

/-- Every key of the histogram fold satisfies any property shared by the
initial keys and the non-empty labels. -/
theorem buildCounts_foldl_keys (P : List Char → Prop) (labels : List (List Char)) :
    ∀ d : List (List Char × Nat), (∀ k ∈ keysOf d, P k) →
      (∀ l ∈ labels, l ≠ [] → P l) →
      ∀ k ∈ keysOf (labels.foldl (fun d l => if l = [] then d else dictIncr d l) d), P k := by
  induction labels with
  | nil => exact fun d hd _ => hd
  | cons l rest ih =>
      intro d hd hl
      rw [List.foldl_cons]
      by_cases he : l = []
      · rw [if_pos he]
        exact ih d hd (fun x hx => hl x (List.mem_cons_of_mem _ hx))
      · rw [if_neg he]
        apply ih (dictIncr d l) ?_ (fun x hx => hl x (List.mem_cons_of_mem _ hx))
        intro k hk
        cases keysOf_dictIncr d l k hk with
        | inl h => exact hd k h
        | inr h => exact h ▸ hl l (List.mem_cons_self _ _) he

/-- The histogram fold keeps keys duplicate-free. -/
theorem buildCounts_foldl_nodup (labels : List (List Char)) :
    ∀ d : List (List Char × Nat), (keysOf d).Nodup →
      (keysOf (labels.foldl (fun d l => if l = [] then d else dictIncr d l) d)).Nodup := by
  induction labels with
  | nil => exact fun d hd => hd
  | cons l rest ih =>
      intro d hnd
      rw [List.foldl_cons]
      by_cases he : l = []
      · rw [if_pos he]
        exact ih d hnd
      · rw [if_neg he]
        exact ih (dictIncr d l) (nodup_keys_dictIncr d l hnd)

/-- A pixel's trajectory string is empty or ends with the arrow chunk:
it is built exclusively by appending name-plus-arrow blocks. -/
theorem pixelTrajectory_empty_or_arrow (names : List (List Char))
    (series : List (List (List Int))) (transitions p : Nat) :
    pixelTrajectory names series transitions p = [] ∨
      arrowChunk <:+ pixelTrajectory names series transitions p := by
  unfold pixelTrajectory
  suffices h : ∀ (ts : List Nat) (traj : List Char), (traj = [] ∨ arrowChunk <:+ traj) →
      ((ts.foldl (fun traj t =>
          match firstGainAux series t p names 0 with
          | none => traj
          | some n => trajAppend traj n) traj) = [] ∨
        arrowChunk <:+ ts.foldl (fun traj t =>
          match firstGainAux series t p names 0 with
          | none => traj
          | some n => trajAppend traj n) traj) by
    exact h (List.range transitions) [] (Or.inl rfl)
  intro ts
  induction ts with
  | nil => exact fun traj h => h
  | cons t rest ih =>
      intro traj htraj
      rw [List.foldl_cons]
      apply ih
      cases hfg : firstGainAux series t p names 0 with
      | none =>
          simp only [hfg]
          exact htraj
      | some n =>
          simp only [hfg]
          unfold trajAppend
          by_cases hsuf : (n ++ arrowChunk).isSuffixOf traj = true
          · rw [if_pos hsuf]
            exact htraj
          · rw [if_neg hsuf]
            right
            rw [← List.append_assoc]
            exact List.suffix_append (traj ++ n) arrowChunk

/-- Dropping the trailing arrow chunk and appending it back is the
identity on arrow-terminated strings. -/
theorem arrow_trim (k : List Char) (h : arrowChunk <:+ k) :
    pyTrim3 k ++ arrowChunk = k := by
  obtain ⟨p, hp⟩ := h
  subst hp
  unfold pyTrim3
  have hlen : (p ++ arrowChunk).length - 3 = p.length := by
    simp [arrowChunk]
  rw [hlen, List.take_left]

/-- `key[:-3]` is injective on arrow-terminated keys. -/
theorem trim_inj_on_arrow (a b : List Char) (ha : arrowChunk <:+ a) (hb : arrowChunk <:+ b)
    (h : pyTrim3 a = pyTrim3 b) : a = b := by
  rw [← arrow_trim a ha, ← arrow_trim b hb, h]

/-- When the shortened keys are pairwise distinct the dict comprehension
preserves the value total. -/
theorem sumVals_clean_foldl (d : List (List Char × Nat)) :
    ∀ acc : List (List Char × Nat), (keysOf acc).Nodup →
      (∀ kv ∈ d, pyTrim3 kv.1 ∉ keysOf acc) →
      (d.map (fun kv => pyTrim3 kv.1)).Nodup →
      sumVals (d.foldl (fun acc kv => dictSet acc (pyTrim3 kv.1) kv.2) acc)
        = sumVals acc + sumVals d := by
  induction d with
  | nil =>
      intro acc _ _ _
      simp [sumVals]
  | cons kv rest ih =>
      intro acc hnd hdis hmapnd
      rw [List.foldl_cons, dictSet_absent acc _ _ (hdis kv (List.mem_cons_self _ _))]
      have hnd2 : (keysOf (acc ++ [(pyTrim3 kv.1, kv.2)])).Nodup := by
        unfold keysOf
        rw [List.map_append]
        simp only [List.map_cons, List.map_nil]
        rw [List.nodup_append]
        refine ⟨hnd, List.nodup_singleton _, ?_⟩
        intro a ha hb
        rw [List.mem_singleton] at hb
        exact hdis kv (List.mem_cons_self _ _) (hb ▸ ha)
      have hdis2 : ∀ e ∈ rest, pyTrim3 e.1 ∉ keysOf (acc ++ [(pyTrim3 kv.1, kv.2)]) := by
        intro e he hm
        unfold keysOf at hm
        rw [List.map_append, List.mem_append] at hm
        cases hm with
        | inl hm2 => exact hdis e (List.mem_cons_of_mem _ he) hm2
        | inr hm2 =>
            have heq : pyTrim3 e.1 = pyTrim3 kv.1 := by simpa using hm2
            have hhead : pyTrim3 kv.1 ∉ rest.map (fun kv => pyTrim3 kv.1) :=
              (List.nodup_cons.mp hmapnd).1
            exact hhead (heq ▸ List.mem_map_of_mem _ he)
      rw [ih _ hnd2 hdis2 (List.nodup_cons.mp hmapnd).2]
      simp only [sumVals, List.map_append, List.sum_append, List.map_cons, List.sum_cons,
        List.map_nil, List.sum_nil]
      omega

/-- Descending insertion adds exactly the inserted value to the total. -/
theorem sumVals_insertDescByKey (x : List Char × Nat) (l : List (List Char × Nat)) :
    sumVals (insertDescByKey x l) = x.2 + sumVals l := by
  induction l with
  | nil => simp [insertDescByKey, sumVals]
  | cons y ys ih =>
      unfold insertDescByKey
      by_cases h : labelLt x.1 y.1 = true
      · rw [if_pos h]
        simp only [sumVals, List.map_cons, List.sum_cons] at ih ⊢
        omega
      · rw [if_neg h]
        simp only [sumVals, List.map_cons, List.sum_cons]

/-- The final descending sort preserves the value total. -/
theorem sumVals_sortDescByKey (d : List (List Char × Nat)) :
    sumVals (sortDescByKey d) = sumVals d := by
  induction d with
  | nil => rfl
  | cons x xs ih =>
      unfold sortDescByKey
      rw [sumVals_insertDescByKey, ih]
      simp only [sumVals, List.map_cons, List.sum_cons]

/-- Reclassification (and hence the boolean rasters) preserves raster
size. -/
theorem booleanRaster_length (c : Int) (name : String) (r : List Int) :
    (booleanRaster c name r).length = r.length := by
  unfold booleanRaster reclassify_raster
  rw [List.length_map]

/-- On equal-length boolean rasters the adjacent-diff chain succeeds and
produces one equal-length diff per adjacent pair. -/
theorem diffSeriesFrom_ok (L : Nat) (bs : List (List Int)) :
    ∀ prev : List Int, prev.length = L → (∀ b ∈ bs, b.length = L) →
      ∃ ds, diffSeriesFrom prev bs = Except.ok ds ∧ ds.length = bs.length ∧
        ∀ d ∈ ds, d.length = L := by
  induction bs with
  | nil =>
      intro prev _ _
      exact ⟨[], rfl, rfl, fun d hd => absurd hd (List.not_mem_nil d)⟩
  | cons x xs ih =>
      intro prev hprev hbs
      have hx : x.length = L := hbs x (List.mem_cons_self _ _)
      have hcomp : compute_raster_class_difference prev x trajDiffRemap
          = Except.ok (List.zipWith (diffPixel trajDiffRemap) prev x) := by
        unfold compute_raster_class_difference
        rw [if_neg (by omega), if_neg (by decide)]
      obtain ⟨ds, hds, hdlen, hdall⟩ := ih x hx (fun b hb => hbs b (List.mem_cons_of_mem _ hb))
      refine ⟨List.zipWith (diffPixel trajDiffRemap) prev x :: ds, ?_, by simp [hdlen], ?_⟩
      · unfold diffSeriesFrom
        rw [hcomp, hds]
        rfl
      · intro d hd
        cases List.mem_cons.mp hd with
        | inl he =>
            rw [he, List.length_zipWith, hprev, hx, Nat.min_self]
        | inr hm => exact hdall d hm

/-- On a non-empty equal-length stack each class's seeded diff series
succeeds, has one layer per year, and every layer has the pixel count. -/
theorem classDiffSeries_ok (c : Int) (name : String) (rasters : List (List Int)) (L : Nat)
    (hne : rasters ≠ []) (hL : ∀ r ∈ rasters, r.length = L) :
    ∃ s, classDiffSeries c name rasters = Except.ok s ∧ s.length = rasters.length ∧
      (∀ a ∈ s, a.length = L) ∧ s ≠ [] := by
  obtain ⟨r0, rs, hr⟩ := List.exists_cons_of_ne_nil hne
  subst hr
  have hb0 : (booleanRaster c name r0).length = L := by
    rw [booleanRaster_length]
    exact hL r0 (List.mem_cons_self _ _)
  have hbs : ∀ b ∈ rs.map (booleanRaster c name), b.length = L := by
    intro b hb
    obtain ⟨r, hrm, hrb⟩ := List.mem_map.mp hb
    rw [← hrb, booleanRaster_length]
    exact hL r (List.mem_cons_of_mem _ hrm)
  obtain ⟨ds, hds, hdlen, hdall⟩ := diffSeriesFrom_ok L (rs.map (booleanRaster c name)) _ hb0 hbs
  refine ⟨booleanRaster c name r0 :: ds, ?_, ?_, ?_, by simp⟩
  · unfold classDiffSeries
    simp only [List.map_cons]
    rw [hds]
    rfl
  · simp only [List.length_cons]
    rw [hdlen, List.length_map]
  · intro a ha
    cases List.mem_cons.mp ha with
    | inl he => exact he ▸ hb0
    | inr hm => exact hdall a hm

/-- `diff_dict` as a whole succeeds on a non-empty equal-length stack:
one series per non-zero class, each with one layer per year and the
common pixel count. -/
theorem aggSeries_ok (reclass_spec : List (Int × PixelRemapSpec))
    (rasters : List (List Int)) (L : Nat)
    (hne : rasters ≠ []) (hL : ∀ r ∈ rasters, r.length = L) :
    ∃ series, aggSeries reclass_spec rasters = Except.ok series ∧
      series.length = (aggClasses reclass_spec).length ∧
      ∀ s ∈ series, s.length = rasters.length ∧ (∀ a ∈ s, a.length = L) ∧ s ≠ [] := by
  unfold aggSeries
  induction aggClasses reclass_spec with
  | nil =>
      refine ⟨[], ?_, rfl, fun s hs => absurd hs (List.not_mem_nil s)⟩
      rfl
  | cons kv rest ih =>
      obtain ⟨series, hseries, hslen, hsall⟩ := ih
      obtain ⟨s, hs, hslen2, hsall2, hsne⟩ := classDiffSeries_ok kv.1 kv.2.name rasters L hne hL
      refine ⟨s :: series, ?_, by simp [hslen], ?_⟩
      · rw [List.mapM_cons, hs, hseries]
        rfl
      · intro t ht
        cases List.mem_cons.mp ht with
        | inl he => exact he ▸ ⟨hslen2, hsall2, hsne⟩
        | inr hm => exact hsall t hm

/-- Claim C5 (amended): on a defined run (non-empty equal-length stack,
at least one non-zero class) the histogram's value total equals the
number of pixels with a non-empty trajectory label; it is therefore at
most the pixel count, with equality when every pixel yields a non-empty
label.  Pixels with empty labels are excluded even though no per-pixel
error occurs. -/
theorem trajectory_sum_conservation (reclass_spec : List (Int × PixelRemapSpec))
    (rasters : List (List Int)) (L : Nat)
    (hne : rasters ≠ [])
    (hL : ∀ r ∈ rasters, r.length = L)
    (hcls : aggClasses reclass_spec ≠ []) :
    ∃ series out,
      aggSeries reclass_spec rasters = Except.ok series ∧
      calculate_pixel_trajectories reclass_spec rasters = Except.ok out ∧
      sumVals out = (aggLabels (aggClassNames reclass_spec) series rasters.length L).countP
        (fun l => decide (l ≠ [])) ∧
      sumVals out ≤ L ∧
      ((∀ l ∈ aggLabels (aggClassNames reclass_spec) series rasters.length L, l ≠ []) →
        sumVals out = L) := by
  obtain ⟨series, hseries, hslen, hsall⟩ := aggSeries_ok reclass_spec rasters L hne hL
  have hser_ne : series ≠ [] := by
    intro h
    rw [h] at hslen
    exact hcls (List.eq_nil_of_length_eq_zero hslen.symm)
  obtain ⟨s0, srest, hs0⟩ := List.exists_cons_of_ne_nil hser_ne
  have hs0mem : s0 ∈ series := by
    rw [hs0]
    exact List.mem_cons_self _ _
  obtain ⟨hs0len, hs0all, hs0ne⟩ := hsall s0 hs0mem
  obtain ⟨a0, arest, ha0⟩ := List.exists_cons_of_ne_nil hs0ne
  have ha0mem : a0 ∈ s0 := by
    rw [ha0]
    exact List.mem_cons_self _ _
  have ha0len : a0.length = L := hs0all a0 ha0mem
  subst hs0
  subst ha0
  have hcalc : calculate_pixel_trajectories reclass_spec rasters
      = Except.ok (sortDescByKey (cleanCounts (buildCounts
          (aggLabels (aggClassNames reclass_spec) ((a0 :: arest) :: srest)
            (a0 :: arest).length a0.length)))) := by
    unfold calculate_pixel_trajectories
    rw [hseries]
    rfl
  rw [hs0len, ha0len] at hcalc
  set labels := aggLabels (aggClassNames reclass_spec) ((a0 :: arest) :: srest)
    rasters.length L
  have hnodup : (keysOf (buildCounts labels)).Nodup := by
    unfold buildCounts
    exact buildCounts_foldl_nodup labels [] (by simp [keysOf])
  have hsum1 : sumVals (buildCounts labels) = labels.countP (fun l => decide (l ≠ [])) := by
    unfold buildCounts
    rw [buildCounts_foldl_sum labels [] (by simp [keysOf])]
    simp [sumVals]
  have harrow : ∀ k ∈ keysOf (buildCounts labels), arrowChunk <:+ k := by
    unfold buildCounts
    apply buildCounts_foldl_keys (fun k => arrowChunk <:+ k) labels []
    · intro k hk
      simp [keysOf] at hk
    · intro l hl hne2
      obtain ⟨p, hpmem, hfl⟩ := List.mem_map.mp hl
      cases pixelTrajectory_empty_or_arrow (aggClassNames reclass_spec)
          ((a0 :: arest) :: srest) rasters.length p with
      | inl h => exact absurd (hfl.symm.trans h) hne2
      | inr h => exact hfl ▸ h
  have hmapnd : ((buildCounts labels).map (fun kv => pyTrim3 kv.1)).Nodup := by
    have h1 : (buildCounts labels).map (fun kv => pyTrim3 kv.1)
        = (keysOf (buildCounts labels)).map pyTrim3 := by
      unfold keysOf
      rw [List.map_map]
      rfl
    rw [h1]
    apply List.Nodup.map_on ?_ hnodup
    intro x hx y hy hxy
    exact trim_inj_on_arrow x y (harrow x hx) (harrow y hy) hxy
  have hsum2 : sumVals (cleanCounts (buildCounts labels)) = sumVals (buildCounts labels) := by
    unfold cleanCounts
    rw [sumVals_clean_foldl (buildCounts labels) [] (by simp [keysOf])
      (fun kv _ hm => by simp [keysOf] at hm) hmapnd]
    simp [sumVals]
  have hsum : sumVals (sortDescByKey (cleanCounts (buildCounts labels)))
      = labels.countP (fun l => decide (l ≠ [])) := by
    rw [sumVals_sortDescByKey, hsum2, hsum1]
  have hlablen : labels.length = L := by
    simp [labels, aggLabels]
  refine ⟨(a0 :: arest) :: srest, sortDescByKey (cleanCounts (buildCounts labels)),
    hseries, hcalc, hsum, ?_, ?_⟩
  · rw [hsum, ← hlablen]
    exact List.countP_le_length _
  · intro hall
    rw [hsum, ← hlablen]
    apply List.countP_eq_length.mpr
    intro l hl
    exact decide_eq_true (hall l hl)

/-- Witness for claim C5 (amended), instantiated at the 3-pixel fixture:
every fixture pixel yields a non-empty label, so the total is bounded by
and characterized through the non-empty-label count. -/
theorem trajectory_sum_conservation_witness :
    ∃ series out,
      aggSeries fixtureSpec fixtureRasters = Except.ok series ∧
      calculate_pixel_trajectories fixtureSpec fixtureRasters = Except.ok out ∧
      sumVals out = (aggLabels (aggClassNames fixtureSpec) series fixtureRasters.length 3).countP
        (fun l => decide (l ≠ [])) ∧
      sumVals out ≤ 3 ∧
      ((∀ l ∈ aggLabels (aggClassNames fixtureSpec) series fixtureRasters.length 3, l ≠ []) →
        sumVals out = 3) :=
  trajectory_sum_conservation fixtureSpec fixtureRasters 3 (by decide) (by decide) (by decide)
